import Mathlib

/-!
Verification of the MediQuery web client (src/mediquery_ui/app/page.tsx).

The core logic is `formatAnswerWithCitations`, which rewrites citation
markers `[k]` in an answer string into markdown links using JavaScript
`String.replace` with a string pattern and a string replacement.  We embed
strings as `List Char`.  JavaScript `String.replace` with a string search
value replaces only the first occurrence, and processes the replacement
string through `GetSubstitution` (ECMA-262), interpreting the patterns
`$$`, `$&`, `$` + backquote and `$` + quote; all other `$`-sequences are
kept literally.  The UI submission flow (askQuestion / handleKeyPress /
the disabled button) is embedded as a small event-step state machine.
-/

namespace MediQuery

/-- Decimal digit character for a digit value below ten. -/
def digitChar (d : Nat) : Char :=
  match d with
  | 0 => '0' | 1 => '1' | 2 => '2' | 3 => '3' | 4 => '4'
  | 5 => '5' | 6 => '6' | 7 => '7' | 8 => '8' | 9 => '9'
  | _ => '0'

/-- Fuel-driven decimal rendering of a natural number, most significant digit
first, matching JavaScript number-to-string conversion for naturals. -/
def natToDigitsAux : Nat → Nat → List Char → List Char
  | 0, _, acc => acc
  | fuel + 1, n, acc =>
    if n < 10 then digitChar n :: acc
    else natToDigitsAux fuel (n / 10) (digitChar (n % 10) :: acc)

/-- Decimal string of a natural number, as a character list. -/
def natStr (n : Nat) : List Char := natToDigitsAux (n + 1) n []

/-- The citation marker text `[k]`, built as the source template
`[${index + 1}]` builds it. -/
def marker (k : Nat) : List Char := '[' :: (natStr k ++ [']'])

/-- The markdown replacement text `[[k]](citation)`, built as the source
template `[[${index + 1}]](${citation})` builds it. -/
def linkText (k : Nat) (citation : List Char) : List Char :=
  '[' :: '[' :: (natStr k ++ (']' :: ']' :: '(' :: (citation ++ [')'])))

/-- Index of the first occurrence of `pat` in a string, as JavaScript
`String.prototype.indexOf` computes it (`none` when absent). -/
def firstOccur (pat : List Char) : List Char → Option Nat
  | [] => if pat.isEmpty then some 0 else none
  | c :: rest =>
    if pat.isPrefixOf (c :: rest) then some 0
    else (firstOccur pat rest).map (· + 1)

/-- ECMA-262 `GetSubstitution` for a string (non-regex) search value:
`matched` is the matched text, `before` the part of the subject before the
match and `after` the part after it.  `$$` yields `$`, `$&` the match,
`$` + backquote the preceding text, `$` + quote the following text; any
other `$`-sequence is kept literally. -/
def getSubstitution (matched before after : List Char) : List Char → List Char
  | [] => []
  | c :: rest =>
    if c = '$' then
      match rest with
      | [] => ['$']
      | d :: rest2 =>
        if d = '$' then '$' :: getSubstitution matched before after rest2
        else if d = '&' then matched ++ getSubstitution matched before after rest2
        else if d = Char.ofNat 96 then before ++ getSubstitution matched before after rest2
        else if d = Char.ofNat 39 then after ++ getSubstitution matched before after rest2
        else '$' :: getSubstitution matched before after (d :: rest2)
    else c :: getSubstitution matched before after rest

/-- JavaScript `subject.replace(pat, repl)` with string arguments: replace
the first occurrence of `pat`, passing `repl` through `GetSubstitution`;
return the subject unchanged when `pat` does not occur. -/
def jsReplace (s pat repl : List Char) : List Char :=
  match firstOccur pat s with
  | none => s
  | some i =>
    s.take i ++ getSubstitution pat (s.take i) (s.drop (i + pat.length)) repl
      ++ s.drop (i + pat.length)

/-- The loop body of `formatAnswerWithCitations`: fold `citations.forEach`
from absolute citation index `i`, replacing marker `[i+1]` by its link. -/
def formatFrom (s : List Char) (citations : List (List Char)) (i : Nat) : List Char :=
  match citations with
  | [] => s
  | c :: rest => formatFrom (jsReplace s (marker (i + 1)) (linkText (i + 1) c)) rest (i + 1)

/-- Embedding of `formatAnswerWithCitations` from src/mediquery_ui/app/page.tsx. -/
def formatAnswerWithCitations (answer : List Char) (citations : List (List Char)) : List Char :=
  formatFrom answer citations 0

/-- Literal first-occurrence replacement, the spec's reading of the
substitution (no `$`-pattern processing). -/
def literalReplace (pat repl s : List Char) : List Char :=
  match firstOccur pat s with
  | none => s
  | some i => s.take i ++ repl ++ s.drop (i + pat.length)

/-- Modelled from the spec's words in section 4.1: for each index `i` in
ascending order, replace the first textual occurrence of `[i+1]` with the
literal text `[[i+1]](citations[i])`.  Used to compare the spec's literal
reading against the JavaScript behaviour. -/
def resolveSpecFrom (s : List Char) (citations : List (List Char)) (i : Nat) : List Char :=
  match citations with
  | [] => s
  | c :: rest => resolveSpecFrom (literalReplace (marker (i + 1)) (linkText (i + 1) c) s) rest (i + 1)

/-- Modelled from the spec's words in section 4.1: the literal-replacement
citation resolver. -/
def resolveSpec (answer : List Char) (citations : List (List Char)) : List Char :=
  resolveSpecFrom answer citations 0

/-! Digit and decimal-string lemmas. -/

/-- Digit value of a character. -/
def digitVal (c : Char) : Nat := c.toNat - 48

/-- Numeric value of a digit string, most significant digit first. -/
def digitsVal (l : List Char) : Nat := l.foldl (fun acc c => 10 * acc + digitVal c) 0

/-- A decimal digit character. -/
def isDigitCh (c : Char) : Prop := 48 ≤ c.toNat ∧ c.toNat ≤ 57

instance (c : Char) : Decidable (isDigitCh c) := by unfold isDigitCh; infer_instance

theorem digitChar_isDigit (d : Nat) (hd : d < 10) : isDigitCh (digitChar d) := by
  interval_cases d <;> exact ⟨by decide, by decide⟩

theorem digitVal_digitChar (d : Nat) (hd : d < 10) : digitVal (digitChar d) = d := by
  interval_cases d <;> rfl

theorem isDigitCh_ne (c : Char) (h : isDigitCh c) :
    c ≠ '[' ∧ c ≠ ']' ∧ c ≠ '(' ∧ c ≠ ')' ∧ c ≠ '$' := by
  refine ⟨?_, ?_, ?_, ?_, ?_⟩ <;> · rintro rfl; revert h; decide

theorem natToDigitsAux_eq (fuel : Nat) : ∀ n acc, n < fuel →
    natToDigitsAux fuel n acc = natStr n ++ acc := by
  induction fuel using Nat.strong_induction_on with
  | _ fuel ih =>
    match fuel with
    | 0 => intro n acc h; omega
    | f + 1 =>
      intro n acc h
      by_cases hn : n < 10
      · simp only [natToDigitsAux, if_pos hn, natStr]
        simp [natToDigitsAux, if_pos hn]
      · have hdiv : n / 10 < n := Nat.div_lt_self (by omega) (by omega)
        have hstep : natStr n = natStr (n / 10) ++ [digitChar (n % 10)] := by
          show natToDigitsAux (n + 1) n [] = _
          simp only [natToDigitsAux, if_neg hn]
          exact ih n h (n / 10) [digitChar (n % 10)] hdiv
        simp only [natToDigitsAux, if_neg hn]
        rw [ih f (by omega) (n / 10) (digitChar (n % 10) :: acc) (by omega), hstep,
          List.append_assoc]
        rfl

theorem natStr_rec (n : Nat) :
    natStr n = if n < 10 then [digitChar n] else natStr (n / 10) ++ [digitChar (n % 10)] := by
  by_cases hn : n < 10
  · simp only [if_pos hn, natStr, natToDigitsAux, if_pos hn]
  · have hdiv : n / 10 < n := Nat.div_lt_self (by omega) (by omega)
    simp only [if_neg hn]
    show natToDigitsAux (n + 1) n [] = _
    simp only [natToDigitsAux, if_neg hn]
    exact natToDigitsAux_eq n (n / 10) [digitChar (n % 10)] hdiv

theorem natStr_ne_nil (n : Nat) : natStr n ≠ [] := by
  rw [natStr_rec]
  by_cases hn : n < 10
  · simp [hn]
  · simp [hn]

theorem natStr_digits (n : Nat) : ∀ c ∈ natStr n, isDigitCh c := by
  induction n using Nat.strong_induction_on with
  | _ n ih =>
    rw [natStr_rec]
    by_cases hn : n < 10
    · simp only [if_pos hn, List.mem_singleton]
      rintro c rfl
      exact digitChar_isDigit n hn
    · have hdiv : n / 10 < n := Nat.div_lt_self (by omega) (by omega)
      simp only [if_neg hn, List.mem_append, List.mem_singleton]
      rintro c (hc | rfl)
      · exact ih (n / 10) hdiv c hc
      · exact digitChar_isDigit (n % 10) (Nat.mod_lt n (by omega))

theorem digitsVal_append_single (l : List Char) (c : Char) :
    digitsVal (l ++ [c]) = 10 * digitsVal l + digitVal c := by
  simp [digitsVal, List.foldl_append]

theorem digitsVal_natStr (n : Nat) : digitsVal (natStr n) = n := by
  induction n using Nat.strong_induction_on with
  | _ n ih =>
    rw [natStr_rec]
    by_cases hn : n < 10
    · simp only [if_pos hn, digitsVal, List.foldl_cons, List.foldl_nil]
      rw [digitVal_digitChar n hn]
      omega
    · have hdiv : n / 10 < n := Nat.div_lt_self (by omega) (by omega)
      simp only [if_neg hn]
      rw [digitsVal_append_single, ih (n / 10) hdiv,
        digitVal_digitChar (n % 10) (Nat.mod_lt n (by omega))]
      omega

theorem natStr_inj {a b : Nat} (h : natStr a = natStr b) : a = b := by
  have := digitsVal_natStr a
  rw [h, digitsVal_natStr] at this
  omega

/-! Marker and link text structure. -/

theorem marker_ne_nil (k : Nat) : marker k ≠ [] := by simp [marker]

theorem marker_length (k : Nat) : (marker k).length = (natStr k).length + 2 := by
  simp [marker]

theorem marker_inj {j k : Nat} (h : marker j = marker k) : j = k := by
  simp only [marker, List.cons.injEq, true_and] at h
  exact natStr_inj (List.append_cancel_right h)

theorem marker_tail_ne_lbrack (k : Nat) : ∀ c ∈ natStr k ++ [']'], c ≠ '[' := by
  intro c hc
  rcases List.mem_append.1 hc with h | h
  · exact (isDigitCh_ne c (natStr_digits k c h)).1
  · rw [List.mem_singleton] at h
    subst h
    decide

theorem marker_chars (k : Nat) : ∀ c ∈ marker k, c = '[' ∨ c = ']' ∨ isDigitCh c := by
  intro c hc
  rcases List.mem_cons.1 hc with rfl | hc
  · exact Or.inl rfl
  · rcases List.mem_append.1 hc with h | h
    · exact Or.inr (Or.inr (natStr_digits k c h))
    · rw [List.mem_singleton] at h
      exact Or.inr (Or.inl h)

theorem marker_chars_ne_paren (k : Nat) : ∀ c ∈ marker k, c ≠ '(' ∧ c ≠ ')' := by
  intro c hc
  rcases marker_chars k c hc with rfl | rfl | h
  · exact ⟨by decide, by decide⟩
  · exact ⟨by decide, by decide⟩
  · exact ⟨(isDigitCh_ne c h).2.2.1, (isDigitCh_ne c h).2.2.2.1⟩

theorem digits_bracket_eq (d1 : List Char) : ∀ (d2 x y : List Char),
    (∀ c ∈ d1, isDigitCh c) → (∀ c ∈ d2, isDigitCh c) →
    d1 ++ ']' :: x = d2 ++ ']' :: y → d1 = d2 := by
  induction d1 with
  | nil =>
    intro d2 x y _ h2 he
    match d2 with
    | [] => rfl
    | c :: d2' =>
      exfalso
      simp only [List.nil_append, List.cons_append, List.cons.injEq] at he
      have hd : isDigitCh c := h2 c (List.mem_cons_self c d2')
      rcases he with ⟨he, -⟩
      exact (isDigitCh_ne c hd).2.1 he.symm
  | cons a d1' ih =>
    intro d2 x y h1 h2 he
    match d2 with
    | [] =>
      exfalso
      simp only [List.cons_append, List.nil_append, List.cons.injEq] at he
      have hd : isDigitCh a := h1 a (List.mem_cons_self a d1')
      exact (isDigitCh_ne a hd).2.1 he.1
    | c :: d2' =>
      simp only [List.cons_append, List.cons.injEq] at he
      rcases he with ⟨rfl, he⟩
      rw [ih d2' x y (fun c hc => h1 c (List.mem_cons_of_mem a hc))
        (fun c' hc => h2 c' (List.mem_cons_of_mem a hc)) he]

theorem marker_prefix_eq {j k : Nat} {v1 v2 : List Char}
    (h : marker j ++ v1 = marker k ++ v2) : marker j = marker k := by
  simp only [marker, List.cons_append, List.cons.injEq, true_and] at h
  rw [List.append_assoc, List.append_assoc] at h
  simp only [List.singleton_append] at h
  have := digits_bracket_eq (natStr j) (natStr k) v1 v2 (natStr_digits j) (natStr_digits k) h
  simp [marker, this]

theorem linkText_eq_marker (k : Nat) (c : List Char) :
    linkText k c = '[' :: (marker k ++ (']' :: '(' :: (c ++ [')']))) := by
  simp [linkText, marker]

theorem linkText_length (k : Nat) (c : List Char) :
    (linkText k c).length = (marker k).length + c.length + 4 := by
  simp [linkText, marker]
  omega

theorem dollar_not_mem_marker (k : Nat) : '$' ∉ marker k := by
  intro h
  rcases marker_chars k '$' h with h' | h' | h'
  · exact absurd h' (by decide)
  · exact absurd h' (by decide)
  · exact (isDigitCh_ne '$' h').2.2.2.2 rfl

theorem dollar_not_mem_linkText (k : Nat) (c : List Char) (hc : '$' ∉ c) :
    '$' ∉ linkText k c := by
  intro h
  rw [linkText_eq_marker] at h
  rcases List.mem_cons.1 h with h' | h'
  · exact absurd h' (by decide)
  rcases List.mem_append.1 h' with h'' | h''
  · exact dollar_not_mem_marker k h''
  rcases List.mem_cons.1 h'' with h3 | h3
  · exact absurd h3 (by decide)
  rcases List.mem_cons.1 h3 with h4 | h4
  · exact absurd h4 (by decide)
  rcases List.mem_append.1 h4 with h5 | h5
  · exact hc h5
  · rw [List.mem_singleton] at h5
    exact absurd h5 (by decide)

/-! Occurrences of a pattern inside a string. -/

/-- The pattern `pat` occurs in `s` starting at position `i`. -/
def OccAt (pat s : List Char) (i : Nat) : Prop :=
  ∃ u v, s = u ++ pat ++ v ∧ u.length = i

theorem occAt_length (pat s : List Char) (i : Nat) (h : OccAt pat s i) :
    i + pat.length ≤ s.length := by
  obtain ⟨u, v, rfl, rfl⟩ := h
  simp

theorem occAt_append_left {pat u : List Char} {i : Nat} (w : List Char)
    (h : OccAt pat u i) : OccAt pat (u ++ w) i := by
  obtain ⟨x, v, rfl, rfl⟩ := h
  exact ⟨x, v ++ w, by simp, rfl⟩

theorem occAt_append_right {pat w : List Char} {i : Nat} (u : List Char)
    (h : OccAt pat w i) : OccAt pat (u ++ w) (u.length + i) := by
  obtain ⟨x, v, rfl, rfl⟩ := h
  exact ⟨u ++ x, v, by simp, by simp⟩

theorem occAt_take {pat a b : List Char} {i : Nat}
    (h : OccAt pat (a ++ b) i) (hle : i + pat.length ≤ a.length) : OccAt pat a i := by
  obtain ⟨u, v, he, rfl⟩ := h
  refine ⟨u, v.take (a.length - (u ++ pat).length), ?_, rfl⟩
  have h1 := congrArg (List.take a.length) he
  rw [List.take_left] at h1
  rw [List.take_append_eq_append_take,
    List.take_of_length_le (show (u ++ pat).length ≤ a.length by simp; omega)] at h1
  exact h1

theorem occAt_drop {pat a b : List Char} {i : Nat}
    (h : OccAt pat (a ++ b) i) (hge : a.length ≤ i) : OccAt pat b (i - a.length) := by
  obtain ⟨u, v, he, rfl⟩ := h
  refine ⟨u.drop a.length, v, ?_, by simp⟩
  have h1 := congrArg (List.drop a.length) he
  rw [List.drop_left] at h1
  rw [List.append_assoc, List.drop_append_eq_append_drop,
    Nat.sub_eq_zero_of_le hge, List.drop_zero, ← List.append_assoc] at h1
  exact h1

theorem occAt_cons_succ {pat t : List Char} {c : Char} {i : Nat} :
    OccAt pat (c :: t) (i + 1) ↔ OccAt pat t i := by
  constructor
  · rintro ⟨u, v, he, hl⟩
    match u, hl with
    | a :: u', hl =>
      simp only [List.cons_append, List.cons.injEq] at he
      exact ⟨u', v, he.2, by simpa using hl⟩
  · rintro ⟨u, v, rfl, rfl⟩
    exact ⟨c :: u, v, by simp, by simp⟩

theorem occAt_zero {pat t : List Char} :
    OccAt pat t 0 ↔ ∃ v, t = pat ++ v := by
  constructor
  · rintro ⟨u, v, he, hl⟩
    rw [List.length_eq_zero] at hl
    subst hl
    exact ⟨v, by simpa using he⟩
  · rintro ⟨v, rfl⟩
    exact ⟨[], v, by simp, rfl⟩

theorem occAt_zero_head {p' t' : List Char} {c1 c2 : Char}
    (h : OccAt (c1 :: p') (c2 :: t') 0) : c1 = c2 := by
  rw [occAt_zero] at h
  obtain ⟨v, hv⟩ := h
  simp only [List.cons_append, List.cons.injEq] at hv
  exact hv.1.symm

theorem drop_of_decomp {u pat v : List Char} :
    (u ++ pat ++ v).drop (u.length + pat.length) = v := by
  rw [← List.length_append u pat]
  exact List.drop_left (u ++ pat) v

theorem occAt_drop_decomp {pat s : List Char} {i : Nat} (h : OccAt pat s i) :
    s.drop i = pat ++ s.drop (i + pat.length) := by
  obtain ⟨u, v, rfl, rfl⟩ := h
  have h1 : (u ++ pat ++ v).drop u.length = pat ++ v := by
    rw [List.append_assoc]
    exact List.drop_left u (pat ++ v)
  rw [h1, drop_of_decomp]

/-! Bridging `List.isPrefixOf` with occurrence at position zero. -/

theorem isPrefixOf_iff_exists : ∀ (l1 l2 : List Char),
    l1.isPrefixOf l2 = true ↔ ∃ t, l1 ++ t = l2 := by
  intro l1
  induction l1 with
  | nil => intro l2; simp [List.isPrefixOf]
  | cons a l1' ih =>
    intro l2
    match l2 with
    | [] => simp [List.isPrefixOf]
    | b :: l2' =>
      simp only [List.isPrefixOf, Bool.and_eq_true, beq_iff_eq, ih l2']
      constructor
      · rintro ⟨rfl, t, rfl⟩
        exact ⟨t, rfl⟩
      · rintro ⟨t, ht⟩
        simp only [List.cons_append, List.cons.injEq] at ht
        exact ⟨ht.1, t, ht.2⟩

theorem firstOccur_none_nocc (pat : List Char) :
    ∀ s, firstOccur pat s = none → ∀ q, ¬ OccAt pat s q := by
  intro s
  induction s with
  | nil =>
    intro h q hq
    obtain ⟨u, v, he, _⟩ := hq
    have : pat = [] := by
      rcases List.append_eq_nil.1 he.symm with ⟨h1, -⟩
      exact (List.append_eq_nil.1 h1).2
    rw [this] at h
    simp [firstOccur] at h
  | cons c t ih =>
    intro h q hq
    simp only [firstOccur] at h
    by_cases hpre : pat.isPrefixOf (c :: t)
    · rw [if_pos hpre] at h; exact Option.noConfusion h
    · rw [if_neg hpre] at h
      have hrest : firstOccur pat t = none := by
        cases hfo : firstOccur pat t with
        | none => rfl
        | some i => rw [hfo] at h; simp at h
      match q with
      | 0 =>
        rw [occAt_zero] at hq
        obtain ⟨v, hv⟩ := hq
        exact hpre ((isPrefixOf_iff_exists pat (c :: t)).2 ⟨v, hv.symm⟩)
      | q' + 1 =>
        exact ih hrest q' (occAt_cons_succ.1 hq)

theorem firstOccur_isFirst (pat : List Char) :
    ∀ s i, firstOccur pat s = some i →
      OccAt pat s i ∧ ∀ q, q < i → ¬ OccAt pat s q := by
  intro s
  induction s with
  | nil =>
    intro i h
    simp only [firstOccur] at h
    by_cases hp : pat.isEmpty
    · rw [if_pos hp] at h
      obtain rfl : (0 : Nat) = i := Option.some.inj h
      refine ⟨⟨[], [], ?_, rfl⟩, fun q hq => by omega⟩
      rw [List.isEmpty_iff] at hp
      simp [hp]
    · rw [if_neg hp] at h; exact Option.noConfusion h
  | cons c t ih =>
    intro i h
    simp only [firstOccur] at h
    by_cases hpre : pat.isPrefixOf (c :: t)
    · rw [if_pos hpre] at h
      obtain rfl : (0 : Nat) = i := Option.some.inj h
      obtain ⟨v, hv⟩ := (isPrefixOf_iff_exists pat (c :: t)).1 hpre
      exact ⟨occAt_zero.2 ⟨v, hv.symm⟩, fun q hq => by omega⟩
    · rw [if_neg hpre] at h
      cases hfo : firstOccur pat t with
      | none => rw [hfo] at h; simp at h
      | some i' =>
        rw [hfo] at h
        obtain rfl : i' + 1 = i := by simpa using h
        obtain ⟨hocc, hmin⟩ := ih i' hfo
        refine ⟨occAt_cons_succ.2 hocc, ?_⟩
        intro q hq hqocc
        match q with
        | 0 =>
          rw [occAt_zero] at hqocc
          obtain ⟨v, hv⟩ := hqocc
          exact hpre ((isPrefixOf_iff_exists pat (c :: t)).2 ⟨v, hv.symm⟩)
        | q' + 1 =>
          exact hmin q' (by omega) (occAt_cons_succ.1 hqocc)

theorem occAt_firstOccur {pat s : List Char} {q : Nat} (h : OccAt pat s q) :
    ∃ i, firstOccur pat s = some i ∧ i ≤ q := by
  cases hfo : firstOccur pat s with
  | none => exact absurd h (firstOccur_none_nocc pat s hfo q)
  | some i =>
    refine ⟨i, rfl, ?_⟩
    by_contra hlt
    exact (firstOccur_isFirst pat s i hfo).2 q (by omega) h

/-! Replacement semantics. -/

theorem getSubstitution_no_dollar (m b a : List Char) :
    ∀ repl, '$' ∉ repl → getSubstitution m b a repl = repl := by
  intro repl
  induction repl with
  | nil => intro; rfl
  | cons c rest ih =>
    intro h
    have hc : ¬ (c = '$') := fun he => h (he ▸ List.mem_cons_self c rest)
    have hrest : '$' ∉ rest := fun he => h (List.mem_cons_of_mem c he)
    cases rest with
    | nil => rw [getSubstitution.eq_2, if_neg hc, getSubstitution.eq_1]
    | cons d rest2 => rw [getSubstitution.eq_3, if_neg hc, ih hrest]

theorem take_of_decomp {u rest : List Char} : (u ++ rest).take u.length = u :=
  List.take_left u rest

theorem jsReplace_decomp {pat s u v : List Char} (repl : List Char)
    (hs : s = u ++ pat ++ v) (hmin : ∀ q, q < u.length → ¬ OccAt pat s q) :
    jsReplace s pat repl = u ++ getSubstitution pat u v repl ++ v := by
  have hocc : OccAt pat s u.length := ⟨u, v, hs, rfl⟩
  obtain ⟨i, hfo, hle⟩ := occAt_firstOccur hocc
  have hi : i = u.length := by
    rcases Nat.lt_or_ge i u.length with hlt | hge
    · exact absurd (firstOccur_isFirst pat s i hfo).1 (hmin i hlt)
    · omega
  subst hi
  simp only [jsReplace, hfo]
  have htake : s.take u.length = u := by
    rw [hs, List.append_assoc]; exact take_of_decomp
  have hdrop : s.drop (u.length + pat.length) = v := by
    rw [hs]; exact drop_of_decomp
  rw [htake, hdrop]

theorem jsReplace_of_none {pat s : List Char} (repl : List Char)
    (h : firstOccur pat s = none) : jsReplace s pat repl = s := by
  simp [jsReplace, h]

theorem literalReplace_decomp {pat s u v : List Char} (repl : List Char)
    (hs : s = u ++ pat ++ v) (hmin : ∀ q, q < u.length → ¬ OccAt pat s q) :
    literalReplace pat repl s = u ++ repl ++ v := by
  have hocc : OccAt pat s u.length := ⟨u, v, hs, rfl⟩
  obtain ⟨i, hfo, hle⟩ := occAt_firstOccur hocc
  have hi : i = u.length := by
    rcases Nat.lt_or_ge i u.length with hlt | hge
    · exact absurd (firstOccur_isFirst pat s i hfo).1 (hmin i hlt)
    · omega
  subst hi
  simp only [literalReplace, hfo]
  have htake : s.take u.length = u := by
    rw [hs, List.append_assoc]; exact take_of_decomp
  have hdrop : s.drop (u.length + pat.length) = v := by
    rw [hs]; exact drop_of_decomp
  rw [htake, hdrop]

theorem jsReplace_eq_literal {s pat repl : List Char} (hd : '$' ∉ repl) :
    jsReplace s pat repl = literalReplace pat repl s := by
  cases hfo : firstOccur pat s with
  | none => simp [jsReplace, literalReplace, hfo]
  | some i =>
    simp only [jsReplace, literalReplace, hfo]
    rw [getSubstitution_no_dollar _ _ _ repl hd]

/-! Occurrences of markers never overlap other marker occurrences except at
identical positions, because a marker is an opening bracket followed by
digits and a closing bracket. -/

theorem occAt_char {pat s : List Char} {i : Nat} (pos : Nat) (h : OccAt pat s i)
    (h1 : i ≤ pos) (h2 : pos < i + pat.length) :
    ∃ ch w, s.drop pos = ch :: w ∧ ch ∈ pat.drop (pos - i) := by
  have hd := occAt_drop_decomp h
  have hpos : s.drop pos = (s.drop i).drop (pos - i) := by
    rw [List.drop_drop]
    congr 1
    omega
  rw [hd, List.drop_append_eq_append_drop,
    show pos - i - pat.length = 0 from by omega, List.drop_zero] at hpos
  cases hdp : pat.drop (pos - i) with
  | nil =>
    exfalso
    have := congrArg List.length hdp
    simp only [List.length_drop, List.length_nil] at this
    omega
  | cons ch w' =>
    rw [hdp] at hpos
    refine ⟨ch, w' ++ s.drop (i + pat.length), by rw [hpos]; rfl, ?_⟩
    exact List.mem_cons_self ch w'

theorem drop_at_mid {x y : List Char} {ch : Char} : (x ++ ch :: y).drop x.length = ch :: y :=
  List.drop_left x (ch :: y)

theorem marker_no_overlap_lt {j k : Nat} {s : List Char} {p q : Nat}
    (hj : OccAt (marker j) s p) (hk : OccAt (marker k) s q)
    (h1 : p < q) (h2 : q < p + (marker j).length) : False := by
  obtain ⟨ch, w, hdrop, hmem⟩ := occAt_char q hj (by omega) h2
  have hk2 := occAt_drop_decomp hk
  rw [hdrop] at hk2
  simp only [marker, List.cons_append] at hk2
  injection hk2 with hch hrest
  have hsub : ch ∈ natStr j ++ [']'] := by
    have hqp : q - p = (q - p - 1) + 1 := by omega
    rw [hqp] at hmem
    have hstep : (marker j).drop ((q - p - 1) + 1) = (natStr j ++ [']']).drop (q - p - 1) := rfl
    rw [hstep] at hmem
    exact List.drop_subset _ _ hmem
  exact marker_tail_ne_lbrack j ch hsub hch

theorem marker_overlap {j k : Nat} {s : List Char} {p q : Nat}
    (hj : OccAt (marker j) s p) (hk : OccAt (marker k) s q) :
    p + (marker j).length ≤ q ∨ q + (marker k).length ≤ p ∨
      (p = q ∧ marker j = marker k) := by
  rcases Nat.lt_trichotomy p q with hlt | rfl | hgt
  · rcases Nat.lt_or_ge q (p + (marker j).length) with hin | hout
    · exact absurd (marker_no_overlap_lt hj hk hlt hin) id
    · exact Or.inl hout
  · right; right
    refine ⟨rfl, ?_⟩
    have hdj := occAt_drop_decomp hj
    have hdk := occAt_drop_decomp hk
    exact marker_prefix_eq (hdj.symm.trans hdk)
  · rcases Nat.lt_or_ge p (q + (marker k).length) with hin | hout
    · exact absurd (marker_no_overlap_lt hk hj hgt hin) id
    · exact Or.inr (Or.inl hout)

/-! Decomposing marker occurrences around a replaced region. -/

theorem occAt_context_marker {k j : Nat} {u v : List Char} {i : Nat}
    (h : OccAt (marker k) (u ++ marker j ++ v) i) :
    (i + (marker k).length ≤ u.length ∧ OccAt (marker k) u i) ∨
    (u.length + (marker j).length ≤ i ∧
      OccAt (marker k) v (i - u.length - (marker j).length)) ∨
    (i = u.length ∧ marker k = marker j) := by
  have hj : OccAt (marker j) (u ++ marker j ++ v) u.length := ⟨u, v, rfl, rfl⟩
  rcases marker_overlap h hj with h1 | h1 | h1
  · left
    refine ⟨h1, ?_⟩
    rw [List.append_assoc] at h
    exact occAt_take h h1
  · right; left
    refine ⟨h1, ?_⟩
    have h2 := occAt_drop h (show (u ++ marker j).length ≤ i by simp; omega)
    simpa [Nat.sub_sub] using h2
  · exact Or.inr (Or.inr h1)

theorem occAt_context_link {k j : Nat} {c u v : List Char} {i : Nat}
    (hc : ∀ q, ¬ OccAt (marker k) c q)
    (h : OccAt (marker k) (u ++ linkText j c ++ v) i) :
    (i + (marker k).length ≤ u.length ∧ OccAt (marker k) u i) ∨
    (u.length + (linkText j c).length ≤ i ∧
      OccAt (marker k) v (i - u.length - (linkText j c).length)) ∨
    (i = u.length + 1 ∧ marker k = marker j) := by
  have hs : u ++ linkText j c ++ v =
      (u ++ ['[']) ++ marker j ++ (']' :: '(' :: (c ++ ')' :: v)) := by
    rw [linkText_eq_marker]
    simp
  rw [hs] at h
  rcases occAt_context_marker h with ⟨hb, hocc⟩ | ⟨hb, hocc⟩ | ⟨hb, heq⟩
  · -- the occurrence ends inside `u ++ "["`
    simp only [List.length_append, List.length_cons, List.length_nil] at hb
    rcases Nat.lt_or_ge (i + (marker k).length) (u.length + 1) with hlt | hge
    · left
      have hle : i + (marker k).length ≤ u.length := by omega
      exact ⟨hle, occAt_take hocc hle⟩
    · exfalso
      -- the occurrence would end exactly on the bracket that opens the link
      have hcov : i ≤ u.length ∧ u.length < i + (marker k).length := by
        have := marker_length k
        omega
      obtain ⟨ch, w, hdrop, hmem⟩ := occAt_char u.length hocc hcov.1 hcov.2
      rw [drop_at_mid] at hdrop
      injection hdrop with hch hw
      -- ch is the last character of the marker, a closing bracket
      have hpos : u.length - i = (marker k).length - 1 := by
        have := marker_length k
        omega
      rw [hpos] at hmem
      have hlast : (marker k).drop ((marker k).length - 1) = [']'] := by
        have hm : (marker k).length - 1 = ('[' :: natStr k).length := by
          simp [marker_length]
        have hshape : marker k = ('[' :: natStr k) ++ [']'] := by simp [marker]
        rw [hm, hshape]
        exact List.drop_left ('[' :: natStr k) [']']
      rw [hlast] at hmem
      rw [List.mem_singleton] at hmem
      rw [hmem] at hch
      exact absurd hch (by decide)
  · -- the occurrence lies beyond the embedded marker of the link
    have hb' : u.length + 1 + (marker j).length ≤ i := by
      simp only [List.length_append, List.length_cons, List.length_nil] at hb
      omega
    have hidx : i - (u ++ ['[']).length - (marker j).length =
        i - u.length - 1 - (marker j).length := by
      simp only [List.length_append, List.length_cons, List.length_nil]
      omega
    rw [hidx] at hocc
    obtain ⟨i1, hi1⟩ : ∃ i1, i - u.length - 1 - (marker j).length = i1 := ⟨_, rfl⟩
    rw [hi1] at hocc
    have hmk : marker k = '[' :: (natStr k ++ [']']) := rfl
    cases i1 with
    | zero =>
      exfalso
      rw [hmk] at hocc
      exact absurd (occAt_zero_head hocc) (by decide)
    | succ i1' =>
      have hocc2 := occAt_cons_succ.1 hocc
      cases i1' with
      | zero =>
        exfalso
        rw [hmk] at hocc2
        exact absurd (occAt_zero_head hocc2) (by decide)
      | succ i2 =>
        have hocc3 := occAt_cons_succ.1 hocc2
        -- hocc3 : OccAt (marker k) (c ++ ')' :: v) i2
        rcases le_or_lt (i2 + (marker k).length) c.length with hin | hcross
        · exact absurd (occAt_take hocc3 hin) (hc i2)
        rcases le_or_lt (c.length + 1) i2 with hafter | hmid
        · right; left
          have hocc4 : OccAt (marker k) ((c ++ [')']) ++ v) i2 := by
            simpa [List.append_assoc] using hocc3
          have hocc5 := occAt_drop hocc4
            (show (c ++ [')']).length ≤ i2 by simp; omega)
          have hll := linkText_length j c
          constructor
          · omega
          · have harith : i2 - (c ++ [')']).length =
                i - u.length - (linkText j c).length := by
              simp only [List.length_append, List.length_cons, List.length_nil]
              omega
            rw [harith] at hocc5
            exact hocc5
        · exfalso
          -- the occurrence would cover the closing parenthesis after the URL
          obtain ⟨ch, w, hdrop, hmem⟩ := occAt_char c.length hocc3 (by omega) (by omega)
          rw [drop_at_mid] at hdrop
          injection hdrop with hch hw
          have hchmem : ch ∈ marker k := List.drop_subset _ _ hmem
          exact (marker_chars_ne_paren k ch hchmem).2 hch.symm
  · right; right
    constructor
    · simp only [List.length_append, List.length_cons, List.length_nil] at hb
      omega
    · exact heq

/-! Counting occurrences, and unique occurrences. -/

/-- Number of positions at which `pat` occurs in `s`. -/
def countOccur (pat s : List Char) : Nat :=
  ((List.range (s.length + 1)).filter (fun i => pat.isPrefixOf (s.drop i))).length

/-- The pattern occurs in `s` at position `q` and nowhere else. -/
def UniqueAt (pat s : List Char) (q : Nat) : Prop :=
  OccAt pat s q ∧ ∀ i, OccAt pat s i → i = q

theorem occAt_iff_isPrefixOf {pat s : List Char} {i : Nat} (hp : pat ≠ []) :
    OccAt pat s i ↔ pat.isPrefixOf (s.drop i) = true := by
  constructor
  · intro h
    rw [isPrefixOf_iff_exists]
    exact ⟨s.drop (i + pat.length), (occAt_drop_decomp h).symm⟩
  · intro h
    rw [isPrefixOf_iff_exists] at h
    obtain ⟨t, ht⟩ := h
    have hi : i ≤ s.length := by
      by_contra hgt
      push_neg at hgt
      rw [List.drop_eq_nil_of_le (by omega)] at ht
      rcases List.append_eq_nil.1 ht with ⟨h1, -⟩
      exact hp h1
    refine ⟨s.take i, t, ?_, ?_⟩
    · rw [List.append_assoc, ht]
      exact (List.take_append_drop i s).symm
    · rw [List.length_take]
      exact Nat.min_eq_left hi

theorem all_eq_singleton {l : List Nat} {q : Nat} (hnd : l.Nodup)
    (hmem : q ∈ l) (hall : ∀ b ∈ l, b = q) : l = [q] := by
  cases l with
  | nil => exact absurd hmem (List.not_mem_nil q)
  | cons a l' =>
    have ha : a = q := hall a (List.mem_cons_self a l')
    subst ha
    cases hl' : l' with
    | nil => rfl
    | cons b l'' =>
      exfalso
      have hb : b = a := by
        refine hall b ?_
        rw [hl']
        exact List.mem_cons_of_mem a (List.mem_cons_self b l'')
      have hnotmem : a ∉ l' := (List.nodup_cons.1 hnd).1
      rw [hl'] at hnotmem
      exact hnotmem (List.mem_cons.2 (Or.inl hb.symm))

theorem countOccur_eq_one_iff {pat s : List Char} (hp : pat ≠ []) :
    countOccur pat s = 1 ↔ ∃ q, UniqueAt pat s q := by
  unfold countOccur
  constructor
  · intro h
    rw [List.length_eq_one] at h
    obtain ⟨a, ha⟩ := h
    have hamem : a ∈ (List.range (s.length + 1)).filter
        (fun i => pat.isPrefixOf (s.drop i)) := by
      rw [ha]
      exact List.mem_cons_self a []
    rw [List.mem_filter, List.mem_range] at hamem
    refine ⟨a, (occAt_iff_isPrefixOf hp).2 hamem.2, ?_⟩
    intro i hi
    have himem : i ∈ (List.range (s.length + 1)).filter
        (fun i => pat.isPrefixOf (s.drop i)) := by
      rw [List.mem_filter, List.mem_range]
      refine ⟨?_, (occAt_iff_isPrefixOf hp).1 hi⟩
      have := occAt_length pat s i hi
      omega
    rw [ha, List.mem_singleton] at himem
    exact himem
  · rintro ⟨q, hq, huni⟩
    have hnodup : ((List.range (s.length + 1)).filter
        (fun i => pat.isPrefixOf (s.drop i))).Nodup :=
      (List.nodup_range _).filter _
    have hqmem : q ∈ (List.range (s.length + 1)).filter
        (fun i => pat.isPrefixOf (s.drop i)) := by
      rw [List.mem_filter, List.mem_range]
      refine ⟨?_, (occAt_iff_isPrefixOf hp).1 hq⟩
      have := occAt_length pat s q hq
      omega
    have hall : ∀ b ∈ (List.range (s.length + 1)).filter
        (fun i => pat.isPrefixOf (s.drop i)), b = q :=
      fun b hb => huni b ((occAt_iff_isPrefixOf hp).2 (List.mem_filter.1 hb).2)
    rw [all_eq_singleton hnodup hqmem hall]
    rfl

/-! One replacement step preserves a unique occurrence of a distinct marker. -/

theorem occAt_left_ctx {pat u : List Char} (w v : List Char) {i : Nat}
    (h : OccAt pat u i) : OccAt pat (u ++ w ++ v) i := by
  rw [List.append_assoc]
  exact occAt_append_left (w ++ v) h

theorem occAt_mid_right {pat u w v : List Char} {i' : Nat} (h : OccAt pat v i') :
    OccAt pat (u ++ w ++ v) (u.length + w.length + i') := by
  have h1 := occAt_append_right (u ++ w) h
  rwa [List.length_append] at h1

theorem stepUnique {k j : Nat} {c s : List Char} {q : Nat}
    (hne : marker k ≠ marker j) (hd : '$' ∉ c)
    (hmf : ∀ q', ¬ OccAt (marker k) c q')
    (h : UniqueAt (marker k) s q) :
    ∃ q', UniqueAt (marker k) (jsReplace s (marker j) (linkText j c)) q' := by
  obtain ⟨hq, huni⟩ := h
  cases hfo : firstOccur (marker j) s with
  | none => exact ⟨q, by rw [jsReplace_of_none _ hfo]; exact ⟨hq, huni⟩⟩
  | some p =>
    obtain ⟨hoccj, hminj⟩ := firstOccur_isFirst (marker j) s p hfo
    obtain ⟨u, v, hs, hu⟩ := hoccj
    subst hs
    subst hu
    have hrepl : jsReplace (u ++ marker j ++ v) (marker j) (linkText j c) =
        u ++ linkText j c ++ v := by
      rw [jsReplace_decomp (linkText j c) rfl (fun q' hq' => hminj q' hq'),
        getSubstitution_no_dollar _ _ _ _ (dollar_not_mem_linkText j c hd)]
    rw [hrepl]
    have hlk := marker_length k
    have hlj := marker_length j
    have hll := linkText_length j c
    rcases occAt_context_marker hq with ⟨hb, hocc⟩ | ⟨hb, hocc⟩ | ⟨hb, heq⟩
    · -- the unique occurrence lies inside u
      refine ⟨q, occAt_left_ctx (linkText j c) v hocc, ?_⟩
      intro i hi
      rcases occAt_context_link hmf hi with ⟨hb2, hocc2⟩ | ⟨hb2, hocc2⟩ | ⟨hb2, heq2⟩
      · exact huni i (occAt_left_ctx (marker j) v hocc2)
      · exfalso
        have hlift := occAt_mid_right (u := u) (w := marker j) hocc2
        have := huni _ hlift
        omega
      · exact absurd heq2 hne
    · -- the unique occurrence lies inside v
      refine ⟨u.length + (linkText j c).length + (q - u.length - (marker j).length),
        occAt_mid_right (u := u) (w := linkText j c) hocc, ?_⟩
      intro i hi
      rcases occAt_context_link hmf hi with ⟨hb2, hocc2⟩ | ⟨hb2, hocc2⟩ | ⟨hb2, heq2⟩
      · exfalso
        have := huni i (occAt_left_ctx (marker j) v hocc2)
        omega
      · have hlift := occAt_mid_right (u := u) (w := marker j) hocc2
        have := huni _ hlift
        omega
      · exact absurd heq2 hne
    · exact absurd heq hne

/-- A replacement step for a distinct marker keeps an existing link text
decomposition intact. -/
theorem stepKeepLink {k j : Nat} {ck s : List Char} (repl : List Char)
    (hne : marker j ≠ marker k)
    (hmfk : ∀ q', ¬ OccAt (marker j) ck q')
    (h : ∃ x y, s = x ++ linkText k ck ++ y) :
    ∃ x y, jsReplace s (marker j) repl = x ++ linkText k ck ++ y := by
  obtain ⟨x, y, rfl⟩ := h
  cases hfo : firstOccur (marker j) (x ++ linkText k ck ++ y) with
  | none => exact ⟨x, y, jsReplace_of_none repl hfo⟩
  | some p =>
    obtain ⟨hoccj, hminj⟩ := firstOccur_isFirst _ _ p hfo
    rcases occAt_context_link hmfk hoccj with ⟨hb, hocc⟩ | ⟨hb, hocc⟩ | ⟨hb, heq⟩
    · -- the replaced occurrence lies inside x
      obtain ⟨x1, x2, hx, hxl⟩ := hocc
      have hs2 : x ++ linkText k ck ++ y =
          x1 ++ marker j ++ (x2 ++ linkText k ck ++ y) := by
        rw [hx]
        simp [List.append_assoc]
      have hmin2 : ∀ q', q' < x1.length → ¬ OccAt (marker j) (x ++ linkText k ck ++ y) q' := by
        intro q' hq'
        exact hminj q' (by omega)
      rw [jsReplace_decomp repl hs2 hmin2]
      refine ⟨x1 ++ getSubstitution (marker j) x1 (x2 ++ linkText k ck ++ y) repl ++ x2, y, ?_⟩
      simp [List.append_assoc]
    · -- the replaced occurrence lies inside y
      obtain ⟨y1, y2, hy, hyl⟩ := hocc
      have hs2 : x ++ linkText k ck ++ y =
          (x ++ linkText k ck ++ y1) ++ marker j ++ y2 := by
        rw [hy]
        simp [List.append_assoc]
      have hxl : (x ++ linkText k ck ++ y1).length = p := by
        simp only [List.length_append]
        omega
      have hmin2 : ∀ q', q' < (x ++ linkText k ck ++ y1).length →
          ¬ OccAt (marker j) (x ++ linkText k ck ++ y) q' := by
        intro q' hq'
        exact hminj q' (by omega)
      rw [jsReplace_decomp repl hs2 hmin2]
      refine ⟨x, y1 ++
        getSubstitution (marker j) (x ++ linkText k ck ++ y1) y2 repl ++ y2, ?_⟩
      simp [List.append_assoc]
    · exact absurd heq hne

/-! Replacing the unique occurrence of marker `k` by its own link text
leaves a unique occurrence of the marker, now embedded inside the link. -/

theorem insertLink_unique {k : Nat} {ck u v : List Char}
    (hmf : ∀ q', ¬ OccAt (marker k) ck q')
    (huni : ∀ i, OccAt (marker k) (u ++ marker k ++ v) i → i = u.length) :
    UniqueAt (marker k) (u ++ linkText k ck ++ v) (u.length + 1) := by
  have hlk := marker_length k
  have hll := linkText_length k ck
  constructor
  · have hsh : u ++ linkText k ck ++ v =
        (u ++ ['[']) ++ marker k ++ (']' :: '(' :: (ck ++ ')' :: v)) := by
      rw [linkText_eq_marker]
      simp
    rw [hsh]
    have hocc : OccAt (marker k)
        ((u ++ ['[']) ++ marker k ++ (']' :: '(' :: (ck ++ ')' :: v)))
        ((u ++ ['[']).length) := ⟨_, _, rfl, rfl⟩
    have hlen : (u ++ ['[']).length = u.length + 1 := by simp
    rwa [hlen] at hocc
  · intro i hi
    rcases occAt_context_link hmf hi with ⟨hb, hocc⟩ | ⟨hb, hocc⟩ | ⟨hb, _⟩
    · exfalso
      have := huni i (occAt_left_ctx (marker k) v hocc)
      omega
    · exfalso
      have hlift := occAt_mid_right (u := u) (w := marker k) hocc
      have := huni _ hlift
      omega
    · exact hb

/-- Replacing the unique occurrence of marker `k` by its link. -/
theorem replace_unique_marker {k : Nat} {ck s : List Char} {q : Nat}
    (hd : '$' ∉ ck) (hmf : ∀ q', ¬ OccAt (marker k) ck q')
    (h : UniqueAt (marker k) s q) :
    ∃ u v, s = u ++ marker k ++ v ∧ u.length = q ∧
      jsReplace s (marker k) (linkText k ck) = u ++ linkText k ck ++ v ∧
      UniqueAt (marker k) (u ++ linkText k ck ++ v) (u.length + 1) := by
  obtain ⟨hocc, huni⟩ := h
  obtain ⟨u, v, hs, hu⟩ := hocc
  subst hs
  subst hu
  refine ⟨u, v, rfl, rfl, ?_, ?_⟩
  · rw [jsReplace_decomp (linkText k ck) rfl
      (fun q' hq' hq'occ => by have := huni q' hq'occ; omega),
      getSubstitution_no_dollar _ _ _ _ (dollar_not_mem_linkText k ck hd)]
  · exact insertLink_unique hmf huni

/-! Folding the citation loop. -/

theorem formatFrom_append (a : List Char) (cs1 cs2 : List (List Char)) (i : Nat) :
    formatFrom a (cs1 ++ cs2) i = formatFrom (formatFrom a cs1 i) cs2 (i + cs1.length) := by
  induction cs1 generalizing a i with
  | nil => simp [formatFrom]
  | cons c rest ih =>
    show formatFrom (jsReplace a (marker (i + 1)) (linkText (i + 1) c)) (rest ++ cs2) (i + 1) =
      formatFrom (formatFrom (jsReplace a (marker (i + 1)) (linkText (i + 1) c)) rest (i + 1))
        cs2 (i + (c :: rest).length)
    rw [ih]
    congr 1
    simp only [List.length_cons]
    omega

theorem formatFrom_keepUnique {k : Nat} :
    ∀ (cs : List (List Char)) (i : Nat) (s : List Char) (q : Nat),
      (∀ c ∈ cs, '$' ∉ c ∧ ∀ q', ¬ OccAt (marker k) c q') →
      (∀ o, o < cs.length → i + o + 1 ≠ k) →
      UniqueAt (marker k) s q →
      ∃ q', UniqueAt (marker k) (formatFrom s cs i) q' := by
  intro cs
  induction cs with
  | nil =>
    intro i s q _ _ h
    exact ⟨q, h⟩
  | cons c rest ih =>
    intro i s q hgood hidx h
    have hne : marker k ≠ marker (i + 1) := by
      intro he
      exact hidx 0 (by simp) (by have := marker_inj he; omega)
    obtain ⟨hd, hmf⟩ := hgood c (List.mem_cons_self c rest)
    obtain ⟨q2, h2⟩ := stepUnique hne hd hmf h
    exact ih (i + 1) _ q2 (fun c' hc' => hgood c' (List.mem_cons_of_mem c hc'))
      (fun o ho => by
        have := hidx (o + 1) (by simp only [List.length_cons]; omega)
        omega) h2

theorem formatFrom_keepLink {k : Nat} {ck : List Char}
    (hckfree : ∀ m, ∀ q', ¬ OccAt (marker m) ck q') :
    ∀ (cs : List (List Char)) (i : Nat) (s : List Char),
      (∀ o, o < cs.length → i + o + 1 ≠ k) →
      (∃ x y, s = x ++ linkText k ck ++ y) →
      ∃ x y, formatFrom s cs i = x ++ linkText k ck ++ y := by
  intro cs
  induction cs with
  | nil =>
    intro i s _ h
    exact h
  | cons c rest ih =>
    intro i s hidx h
    have hne : marker (i + 1) ≠ marker k := by
      intro he
      exact hidx 0 (by simp) (by have := marker_inj he; omega)
    have h2 := stepKeepLink (linkText (i + 1) c) hne (hckfree (i + 1)) h
    exact ih (i + 1) _
      (fun o ho => by
        have := hidx (o + 1) (by simp only [List.length_cons]; omega)
        omega) h2

/-- A marker that occurs in the string still occurs after a replacement
step for a different marker, whatever the replacement text inserts. -/
theorem marker_survives {k j : Nat} {s : List Char} (repl : List Char)
    (hne : marker k ≠ marker j)
    (h : ∃ i, OccAt (marker k) s i) :
    ∃ i, OccAt (marker k) (jsReplace s (marker j) repl) i := by
  obtain ⟨q, hq⟩ := h
  cases hfo : firstOccur (marker j) s with
  | none => exact ⟨q, by rwa [jsReplace_of_none _ hfo]⟩
  | some p =>
    obtain ⟨hoccj, hminj⟩ := firstOccur_isFirst (marker j) s p hfo
    obtain ⟨u, v, hs, hu⟩ := hoccj
    subst hs
    subst hu
    rw [jsReplace_decomp repl rfl (fun q' hq' => hminj q' hq')]
    rcases occAt_context_marker hq with ⟨hb, hocc⟩ | ⟨hb, hocc⟩ | ⟨hb, heq⟩
    · exact ⟨q, occAt_left_ctx _ v hocc⟩
    · exact ⟨_, occAt_mid_right (u := u)
        (w := getSubstitution (marker j) u v repl) hocc⟩
    · exact absurd heq hne

/-- A marker survives the whole citation loop when it differs from every
marker the loop processes. -/
theorem formatFrom_survives {k : Nat} :
    ∀ (cs : List (List Char)) (i : Nat) (s : List Char),
      (∀ o, o < cs.length → i + o + 1 ≠ k) →
      (∃ q, OccAt (marker k) s q) →
      ∃ q, OccAt (marker k) (formatFrom s cs i) q := by
  intro cs
  induction cs with
  | nil =>
    intro i s _ h
    exact h
  | cons c rest ih =>
    intro i s hidx h
    have hne : marker k ≠ marker (i + 1) := by
      intro he
      exact hidx 0 (by simp) (by have := marker_inj he; omega)
    exact ih (i + 1) _
      (fun o ho => by
        have := hidx (o + 1) (by simp only [List.length_cons]; omega)
        omega)
      (marker_survives (linkText (i + 1) c) hne h)

/-- Main resolver lemma: when citations are benign (no `$`, no
marker-shaped substrings) and marker `k` occurs exactly once in the
answer, the resolver output contains the link text for citation `k`
and still contains exactly one occurrence of the marker (the one
embedded in that link). -/
theorem resolver_links_unique {answer : List Char} {citations : List (List Char)} {k : Nat}
    (hk1 : 1 ≤ k) (hlt : k - 1 < citations.length)
    (hgood : ∀ c ∈ citations, '$' ∉ c ∧ ∀ m q', ¬ OccAt (marker m) c q')
    (hone : countOccur (marker k) answer = 1) :
    (∃ x y, formatAnswerWithCitations answer citations =
      x ++ linkText k (citations.get ⟨k - 1, hlt⟩) ++ y) ∧
    countOccur (marker k) (formatAnswerWithCitations answer citations) = 1 := by
  obtain ⟨q0, hq0⟩ := (countOccur_eq_one_iff (marker_ne_nil k)).1 hone
  have hck : citations.get ⟨k - 1, hlt⟩ ∈ citations := citations.get_mem _ _
  have hsplit : citations =
      citations.take (k - 1) ++ citations.get ⟨k - 1, hlt⟩ :: citations.drop k := by
    conv_lhs => rw [← List.take_append_drop (k - 1) citations]
    congr 1
    rw [List.drop_eq_getElem_cons hlt]
    have hk' : k - 1 + 1 = k := by omega
    rw [hk', List.get_eq_getElem]
  have htl : (citations.take (k - 1)).length = k - 1 := by
    rw [List.length_take]
    exact Nat.min_eq_left (by omega)
  have hmain : formatAnswerWithCitations answer citations =
      formatFrom (jsReplace (formatFrom answer (citations.take (k - 1)) 0)
        (marker k) (linkText k (citations.get ⟨k - 1, hlt⟩)))
        (citations.drop k) k := by
    show formatFrom answer citations 0 = _
    conv_lhs => rw [hsplit]
    rw [formatFrom_append, htl]
    have hidx0 : 0 + (k - 1) = k - 1 := by omega
    rw [hidx0]
    show formatFrom (jsReplace (formatFrom answer (citations.take (k - 1)) 0)
        (marker (k - 1 + 1)) (linkText (k - 1 + 1) (citations.get ⟨k - 1, hlt⟩)))
        (citations.drop k) (k - 1 + 1) = _
    have hk' : k - 1 + 1 = k := by omega
    rw [hk']
  obtain ⟨q1, hq1⟩ := formatFrom_keepUnique (citations.take (k - 1)) 0 answer q0
    (fun c hc => ⟨(hgood c (List.take_subset _ _ hc)).1,
      fun q' => (hgood c (List.take_subset _ _ hc)).2 k q'⟩)
    (fun o ho => by rw [htl] at ho; omega)
    hq0
  obtain ⟨u, v, hseq, hul, hrepl, huni2⟩ := replace_unique_marker
    (hgood _ hck).1 ((hgood _ hck).2 k) hq1
  rw [hmain, hrepl]
  constructor
  · exact formatFrom_keepLink (k := k) ((hgood _ hck).2) (citations.drop k) k _
      (fun o ho => by omega) ⟨u, v, rfl⟩
  · rw [countOccur_eq_one_iff (marker_ne_nil k)]
    exact formatFrom_keepUnique (citations.drop k) k _ (u.length + 1)
      (fun c hc => ⟨(hgood c (List.drop_subset _ _ hc)).1,
        fun q' => (hgood c (List.drop_subset _ _ hc)).2 k q'⟩)
      (fun o ho => by omega)
      huni2

/-! The spec's literal reading coincides with the JavaScript behaviour
whenever no citation contains a dollar sign. -/

theorem format_eq_resolveSpec_from :
    ∀ (cs : List (List Char)) (s : List Char) (i : Nat),
      (∀ c ∈ cs, '$' ∉ c) →
      formatFrom s cs i = resolveSpecFrom s cs i := by
  intro cs
  induction cs with
  | nil => intro s i _; rfl
  | cons c rest ih =>
    intro s i hgood
    show formatFrom (jsReplace s (marker (i + 1)) (linkText (i + 1) c)) rest (i + 1) =
      resolveSpecFrom (literalReplace (marker (i + 1)) (linkText (i + 1) c) s) rest (i + 1)
    rw [jsReplace_eq_literal (dollar_not_mem_linkText (i + 1) c
      (hgood c (List.mem_cons_self c rest)))]
    exact ih _ (i + 1) (fun c' hc' => hgood c' (List.mem_cons_of_mem c hc'))

theorem format_eq_resolveSpec (answer : List Char) (citations : List (List Char))
    (hgood : ∀ c ∈ citations, '$' ∉ c) :
    formatAnswerWithCitations answer citations = resolveSpec answer citations :=
  format_eq_resolveSpec_from citations answer 0 hgood

theorem infix_iff_occAt {pat s : List Char} :
    pat <:+: s ↔ ∃ i, OccAt pat s i := by
  constructor
  · rintro ⟨u, v, huv⟩
    exact ⟨u.length, u, v, huv.symm, rfl⟩
  · rintro ⟨i, u, v, rfl, rfl⟩
    exact ⟨u, v, rfl⟩

/-! The query submission flow of `MediQueryUI` (page.tsx): view state,
events, and their effect.  A transition returns the next state together
with a flag telling whether it starts a `fetch` request. -/

/-- The server response shape (`QueryResult` in page.tsx). -/
structure QueryResult where
  topic : List Char
  domain_filter : List (List Char)
  answer : List Char
  citations : List (List Char)

/-- The component state: the four `useState` hooks of `MediQueryUI`,
together with the number of outstanding fetch requests. -/
structure UIState where
  question : List Char
  loading : Bool
  result : Option QueryResult
  error : Option (List Char)
  pending : Nat

/-- JavaScript whitespace characters recognised by `String.trim`. -/
def isJsSpace (c : Char) : Bool :=
  ([9, 10, 11, 12, 13, 32, 160, 5760, 8192, 8193, 8194, 8195, 8196, 8197, 8198,
    8199, 8200, 8201, 8202, 8232, 8233, 8239, 8287, 12288, 65279] : List Nat).contains c.toNat

/-- JavaScript `String.trim`. -/
def trimList (s : List Char) : List Char :=
  ((s.dropWhile isJsSpace).reverse.dropWhile isJsSpace).reverse

/-- The error message template of page.tsx for a non-ok response:
`HTTP error! Status: ${res.status}`. -/
def httpErrorMessage (status : Nat) : List Char :=
  "HTTP error! Status: ".toList ++ natStr status

/-- UI events: editing the input, clicking Ask, a key press, and the
settlement of an outstanding fetch (HTTP response or network failure). -/
inductive UIEvent where
  | edit (q : List Char)
  | click
  | keydown (key : List Char) (shift : Bool)
  | respHttp (status : Nat) (data : QueryResult)
  | respNetwork (msg : List Char)

/-- `askQuestion` of page.tsx: returns without effect when the trimmed
question is empty; otherwise clears result and error, sets loading and
starts a fetch. -/
def askQuestion (s : UIState) : UIState × Bool :=
  if (trimList s.question).isEmpty then (s, false)
  else
    ({ s with loading := true, result := none, error := none, pending := s.pending + 1 }, true)

/-- `handleKeyPress` of page.tsx: Enter without shift submits. -/
def handleKeyPress (key : List Char) (shift : Bool) (s : UIState) : UIState × Bool :=
  if key = "Enter".toList && !shift then askQuestion s else (s, false)

/-- The Ask button: `disabled={loading || !question.trim()}`. -/
def buttonDisabled (s : UIState) : Bool :=
  s.loading || (trimList s.question).isEmpty

/-- One UI transition: the state update for an event, with `true` when it
starts a fetch.  A click submits only through the button, so only when the
button is enabled; a keydown reaches `handleKeyPress` unconditionally.
Fetch settlements apply the `.then` / `catch` / `finally` handlers of
`askQuestion` and only make sense while a request is outstanding. -/
def uiStep (s : UIState) (e : UIEvent) : UIState × Bool :=
  match e with
  | .edit q => ({ s with question := q }, false)
  | .click => if buttonDisabled s then (s, false) else askQuestion s
  | .keydown key shift => handleKeyPress key shift s
  | .respHttp status data =>
    if s.pending = 0 then (s, false)
    else if 200 ≤ status && status ≤ 299 then
      ({ s with result := some data, loading := false, pending := s.pending - 1 }, false)
    else
      ({ s with
          error := some (httpErrorMessage status)
          loading := false
          pending := s.pending - 1 }, false)
  | .respNetwork msg =>
    if s.pending = 0 then (s, false)
    else ({ s with error := some msg, loading := false, pending := s.pending - 1 }, false)

/-- Initial state of the component. -/
def initState : UIState :=
  { question := [], loading := false, result := none, error := none, pending := 0 }

/-- Reachable UI states. -/
inductive ReachableUI : UIState → Prop where
  | init : ReachableUI initState
  | step {s : UIState} (e : UIEvent) : ReachableUI s → ReachableUI (uiStep s e).1

/-- The result card is rendered only when not loading and a result exists
(`!loading && result` in the page markup). -/
def showsResultCard (s : UIState) : Bool := !s.loading && s.result.isSome

theorem step_invariant {s : UIState} (e : UIEvent)
    (ih : s.loading = true → s.result = none ∧ 1 ≤ s.pending) :
    (uiStep s e).1.loading = true →
      (uiStep s e).1.result = none ∧ 1 ≤ (uiStep s e).1.pending := by
  cases e with
  | edit q => exact ih
  | click =>
    by_cases hd : buttonDisabled s
    · simp only [uiStep, if_pos hd]
      exact ih
    · simp only [uiStep, if_neg hd]
      unfold askQuestion
      by_cases he : (trimList s.question).isEmpty
      · simp only [if_pos he]
        exact ih
      · simp only [if_neg he]
        intro _
        exact ⟨by trivial, by omega⟩
  | keydown key shift =>
    simp only [uiStep]
    unfold handleKeyPress
    by_cases hk : (key = "Enter".toList && !shift) = true
    · rw [if_pos hk]
      unfold askQuestion
      by_cases he : (trimList s.question).isEmpty
      · simp only [if_pos he]
        exact ih
      · simp only [if_neg he]
        intro _
        exact ⟨by trivial, by omega⟩
    · rw [if_neg hk]
      exact ih
  | respHttp status data =>
    simp only [uiStep]
    by_cases h0 : s.pending = 0
    · rw [if_pos h0]
      exact ih
    · rw [if_neg h0]
      by_cases hok : (200 ≤ status && status ≤ 299) = true
      · rw [if_pos hok]
        intro hl
        exact Bool.noConfusion hl
      · rw [if_neg hok]
        intro hl
        exact Bool.noConfusion hl
  | respNetwork msg =>
    simp only [uiStep]
    by_cases h0 : s.pending = 0
    · rw [if_pos h0]
      exact ih
    · rw [if_neg h0]
      intro hl
      exact Bool.noConfusion hl

theorem reachable_loading_inv {s : UIState} (h : ReachableUI s) :
    s.loading = true → s.result = none ∧ 1 ≤ s.pending := by
  induction h with
  | init => intro hl; exact Bool.noConfusion hl
  | step e _ ih => exact step_invariant e ih

theorem markerFree_of_no_lbrack {c : List Char} (h : '[' ∉ c) :
    ∀ m q', ¬ OccAt (marker m) c q' := by
  intro m q' hocc
  obtain ⟨u, v, he, -⟩ := hocc
  apply h
  rw [he, List.mem_append, List.mem_append]
  exact Or.inl (Or.inr (List.mem_cons_self _ _))

/-! The claims. -/

/-- C1, counterexample: the resolver does not replace the first occurrence
of a marker with the literal text `[[i+1]](citations[i])` when the citation
contains a JavaScript replacement pattern: on answer `See [1].` with the
single citation `$&` the output differs from the spec's literal algorithm. -/
theorem c1_counterexample :
    formatAnswerWithCitations ("See [1].".toList) [['$', '&']] ≠
      resolveSpec ("See [1].".toList) [['$', '&']] := by
  decide

/-- C1, amended: the resolver processes citations in ascending index order,
replacing the first occurrence of each marker `[i+1]` with the replacement
string `[[i+1]](citations[i])` as processed by JavaScript substitution;
when no citation contains a dollar character this coincides with the spec's
literal first-occurrence substitution algorithm, and a marker occurring
twice has only its first occurrence rewritten. -/
theorem c1_resolver_order :
    (∀ (answer : List Char) (citations : List (List Char)),
      (∀ c ∈ citations, '$' ∉ c) →
      formatAnswerWithCitations answer citations = resolveSpec answer citations) ∧
    formatAnswerWithCitations ("[1] x [1]".toList) ["u".toList] =
      "[[1]](u) x [1]".toList :=
  ⟨format_eq_resolveSpec, by decide⟩

/-- C1, witness: the amended claim applied to a concrete dollar-free input. -/
theorem c1_resolver_order_witness :
    (∀ c ∈ [("https://a.com".toList)], '$' ∉ c) ∧
    formatAnswerWithCitations ("x [1] y".toList) ["https://a.com".toList] =
      resolveSpec ("x [1] y".toList) ["https://a.com".toList] := by
  refine ⟨by decide, ?_⟩
  exact c1_resolver_order.1 _ _ (by decide)

/-- C2, counterexample: `[1]` appears exactly once in the answer and is not
part of any markdown link, yet the resolver output does not contain the
claimed link text `[[1]]($&)` because the citation's `$&` is interpreted as
a replacement pattern. -/
theorem c2_counterexample :
    countOccur (marker 1) ("a [1] b".toList) = 1 ∧
    formatAnswerWithCitations ("a [1] b".toList) [['$', '&']] =
      "a [[1]]([1]) b".toList ∧
    ¬ (linkText 1 ['$', '&'] <:+:
        formatAnswerWithCitations ("a [1] b".toList) [['$', '&']]) := by
  refine ⟨by decide, by decide, by decide⟩

/-- C2, amended: for every `k` in `1..citations.length`, when no citation
contains a dollar character or any marker-shaped substring, and `[k]`
appears exactly once in the answer, the resolver replaces that occurrence:
the output contains `[[k]](citations[k-1])` as a substring, and `[k]`
occurs exactly once in the output, embedded inside that link. -/
theorem c2_unique_marker_linked (answer : List Char) (citations : List (List Char)) (k : Nat)
    (hk1 : 1 ≤ k) (hk2 : k ≤ citations.length)
    (hgood : ∀ c ∈ citations, '$' ∉ c ∧ ∀ m q', ¬ OccAt (marker m) c q')
    (hone : countOccur (marker k) answer = 1) :
    linkText k (citations.get ⟨k - 1, by omega⟩) <:+:
      formatAnswerWithCitations answer citations ∧
    countOccur (marker k) (formatAnswerWithCitations answer citations) = 1 := by
  have h := resolver_links_unique hk1 (show k - 1 < citations.length by omega) hgood hone
  obtain ⟨x, y, he⟩ := h.1
  exact ⟨⟨x, y, he.symm⟩, h.2⟩

/-- C2, witness: the amended claim applied to a concrete input. -/
theorem c2_unique_marker_linked_witness :
    linkText 1 ("u".toList) <:+:
      formatAnswerWithCitations ("A [1] B.".toList) ["u".toList] ∧
    countOccur (marker 1) (formatAnswerWithCitations ("A [1] B.".toList) ["u".toList]) = 1 := by
  have h := c2_unique_marker_linked ("A [1] B.".toList) ["u".toList] 1 (by decide) (by decide)
    (by
      intro c hc
      rw [List.mem_singleton] at hc
      subst hc
      exact ⟨by decide, markerFree_of_no_lbrack (by decide)⟩)
    (by decide)
  exact h

/-- C3: with an empty citation list the resolver returns the answer
unchanged; in particular on the answer `No sources here.`. -/
theorem c3_empty_citations :
    (∀ answer : List Char, formatAnswerWithCitations answer [] = answer) ∧
    formatAnswerWithCitations ("No sources here.".toList) [] =
      "No sources here.".toList :=
  ⟨fun _ => rfl, rfl⟩

/-- C4: a marker whose index exceeds the citation count is left untouched:
when `[k]` occurs in the answer and `citations.length < k`, the substring
`[k]` still occurs in the resolver output. -/
theorem c4_out_of_range_marker (answer : List Char) (citations : List (List Char)) (k : Nat)
    (hk : citations.length < k) (h : marker k <:+: answer) :
    marker k <:+: formatAnswerWithCitations answer citations := by
  rw [infix_iff_occAt] at h ⊢
  exact formatFrom_survives citations 0 answer (fun o ho => by omega) h

/-- C4, witness: `[5]` with three citations survives. -/
theorem c4_out_of_range_marker_witness :
    marker 5 <:+: formatAnswerWithCitations ("x [5] y [1]".toList)
      ["a".toList, "b".toList, "c".toList] := by
  apply c4_out_of_range_marker _ _ 5 (by decide)
  decide

/-- C5: the concrete two-citation scenario of the spec resolves to the
expected markdown. -/
theorem c5_concrete_scenario :
    formatAnswerWithCitations
      ("Use ibuprofen cautiously [1]. See also [2] for dosage.".toList)
      ["https://a.com".toList, "https://b.com".toList] =
    ("Use ibuprofen cautiously [[1]](https://a.com). " ++
      "See also [[2]](https://b.com) for dosage.").toList := by
  decide

/-- C6: the resolver is not idempotent: applying it twice can differ from
applying it once, because a substitution introduces new `[k]`-shaped text. -/
theorem c6_not_idempotent :
    ∃ (answer : List Char) (citations : List (List Char)),
      formatAnswerWithCitations (formatAnswerWithCitations answer citations) citations ≠
        formatAnswerWithCitations answer citations :=
  ⟨"[1] [1]".toList, ["u".toList], by decide⟩

/-- C7: the resolver is a pure deterministic function of its two inputs:
equal answers and equal citation lists give equal outputs. -/
theorem c7_deterministic (a1 a2 : List Char) (c1 c2 : List (List Char))
    (ha : a1 = a2) (hc : c1 = c2) :
    formatAnswerWithCitations a1 c1 = formatAnswerWithCitations a2 c2 := by
  rw [ha, hc]

/-- C7, witness: determinism at a concrete input. -/
theorem c7_deterministic_witness :
    formatAnswerWithCitations ("q [1]".toList) ["u".toList] =
      formatAnswerWithCitations ("q [1]".toList) ["u".toList] :=
  c7_deterministic _ _ _ _ rfl rfl

/-- C8: the pending-request guard is bypassed by the Enter key.  From the
reachable state obtained by typing `hi` and clicking Ask, the state is
loading; an Enter keydown then starts a second fetch even though a request
is pending, while the button path is correctly blocked. -/
theorem c8_enter_bypasses_loading :
    ReachableUI ((uiStep (uiStep initState (UIEvent.edit ("hi".toList))).1 UIEvent.click).1) ∧
    ((uiStep (uiStep initState (UIEvent.edit ("hi".toList))).1 UIEvent.click).1).loading = true ∧
    (uiStep ((uiStep (uiStep initState (UIEvent.edit ("hi".toList))).1 UIEvent.click).1)
      (UIEvent.keydown ("Enter".toList) false)).2 = true ∧
    (uiStep ((uiStep (uiStep initState (UIEvent.edit ("hi".toList))).1 UIEvent.click).1)
      UIEvent.click).2 = false := by
  refine ⟨?_, by decide, by decide, by decide⟩
  exact ReachableUI.step UIEvent.click (ReachableUI.step _ ReachableUI.init)

/-- C9: in every reachable loading state, a transport or HTTP failure —
an HTTP response with any non-2xx status, or a network error — settles
the request by surfacing a single user-visible error string (derived
from the status in the HTTP case, the thrown message in the network
case), clearing the loading state, rendering no result card, keeping
the question intact and allowing a retry; the settlement itself starts
no fetch. -/
theorem c9_http_failure (s : UIState) (d : QueryResult) (status : Nat) (msg : List Char)
    (h : ReachableUI s) (hl : s.loading = true)
    (hbad : ¬ (200 ≤ status ∧ status ≤ 299)) :
    ((uiStep s (UIEvent.respHttp status d)).2 = false ∧
      ((uiStep s (UIEvent.respHttp status d)).1).error = some (httpErrorMessage status) ∧
      ((uiStep s (UIEvent.respHttp status d)).1).loading = false ∧
      ((uiStep s (UIEvent.respHttp status d)).1).result = none ∧
      showsResultCard ((uiStep s (UIEvent.respHttp status d)).1) = false ∧
      ((uiStep s (UIEvent.respHttp status d)).1).question = s.question ∧
      ((trimList s.question).isEmpty = false →
        (uiStep ((uiStep s (UIEvent.respHttp status d)).1) UIEvent.click).2 = true)) ∧
    ((uiStep s (UIEvent.respNetwork msg)).2 = false ∧
      ((uiStep s (UIEvent.respNetwork msg)).1).error = some msg ∧
      ((uiStep s (UIEvent.respNetwork msg)).1).loading = false ∧
      ((uiStep s (UIEvent.respNetwork msg)).1).result = none ∧
      showsResultCard ((uiStep s (UIEvent.respNetwork msg)).1) = false ∧
      ((uiStep s (UIEvent.respNetwork msg)).1).question = s.question ∧
      ((trimList s.question).isEmpty = false →
        (uiStep ((uiStep s (UIEvent.respNetwork msg)).1) UIEvent.click).2 = true)) := by
  obtain ⟨hres, hpend⟩ := reachable_loading_inv h hl
  have h0 : ¬ (s.pending = 0) := by omega
  have hcond : ¬ ((200 ≤ status && status ≤ 299) = true) := by
    simpa using hbad
  have hstep : uiStep s (UIEvent.respHttp status d) =
      ({ s with
          error := some (httpErrorMessage status)
          loading := false
          pending := s.pending - 1 }, false) := by
    simp only [uiStep, if_neg h0]
    rw [if_neg hcond]
  have hstepN : uiStep s (UIEvent.respNetwork msg) =
      ({ s with error := some msg, loading := false, pending := s.pending - 1 }, false) := by
    simp only [uiStep, if_neg h0]
  constructor
  · rw [hstep]
    refine ⟨rfl, rfl, rfl, hres, ?_, rfl, ?_⟩
    · simp [showsResultCard, hres]
    · intro hq
      simp [uiStep, buttonDisabled, askQuestion, hq]
  · rw [hstepN]
    refine ⟨rfl, rfl, rfl, hres, ?_, rfl, ?_⟩
    · simp [showsResultCard, hres]
    · intro hq
      simp [uiStep, buttonDisabled, askQuestion, hq]

/-- C9, witness: the 500 settlement and a network-failure settlement in
the concrete loading state reached by typing `hi` and clicking Ask. -/
theorem c9_http_failure_witness :
    ((uiStep ((uiStep (uiStep initState (UIEvent.edit ("hi".toList))).1 UIEvent.click).1)
      (UIEvent.respHttp 500 ⟨[], [], [], []⟩)).1).error = some (httpErrorMessage 500) ∧
    showsResultCard ((uiStep ((uiStep (uiStep initState
      (UIEvent.edit ("hi".toList))).1 UIEvent.click).1)
      (UIEvent.respHttp 500 ⟨[], [], [], []⟩)).1) = false ∧
    ((uiStep ((uiStep (uiStep initState (UIEvent.edit ("hi".toList))).1 UIEvent.click).1)
      (UIEvent.respNetwork ("Failed to fetch".toList))).1).error =
        some ("Failed to fetch".toList) ∧
    httpErrorMessage 500 = "HTTP error! Status: 500".toList := by
  have h := c9_http_failure
    ((uiStep (uiStep initState (UIEvent.edit ("hi".toList))).1 UIEvent.click).1)
    ⟨[], [], [], []⟩ 500 ("Failed to fetch".toList)
    (ReachableUI.step UIEvent.click (ReachableUI.step _ ReachableUI.init))
    (by decide) (by decide)
  exact ⟨h.1.2.1, h.1.2.2.2.2.1, h.2.2.1, by decide⟩

/-- C10: a substitution inserts the replacement text literally exactly when
it contains no dollar character; dollar sequences in a citation are instead
interpreted as JavaScript replacement patterns, so `$&` inserts the matched
marker, `$$` a dollar sign, a dollar-backquote the text before the match
and a dollar-quote the text after it. -/
theorem c10_dollar_patterns :
    (∀ s pat repl : List Char, '$' ∉ repl →
      jsReplace s pat repl = literalReplace pat repl s) ∧
    formatAnswerWithCitations ("See [1].".toList) [['$', '&']] =
      "See [[1]]([1]).".toList ∧
    formatAnswerWithCitations ("See [1].".toList) [['$', '$']] =
      "See [[1]]($).".toList ∧
    formatAnswerWithCitations ("See [1].".toList) [['$', Char.ofNat 96]] =
      "See [[1]](See ).".toList ∧
    formatAnswerWithCitations ("See [1].".toList) [['$', Char.ofNat 39]] =
      "See [[1]](.).".toList :=
  ⟨fun _ _ _ hd => jsReplace_eq_literal hd, by decide, by decide, by decide, by decide⟩

/-- C10, witness: literal insertion for a dollar-free replacement. -/
theorem c10_dollar_patterns_witness :
    ('$' ∉ ("url".toList)) ∧
    jsReplace ("a [1]".toList) (marker 1) ("url".toList) =
      literalReplace (marker 1) ("url".toList) ("a [1]".toList) :=
  ⟨by decide, c10_dollar_patterns.1 _ _ _ (by decide)⟩

end MediQuery
